import Mathlib

/-
Verification of the c-ringbuf ring buffer (ringbuf.c) against its design
specification. The C structure `struct ringbuf_t` holds a pointer `buf`
to `size` bytes of storage and two cursor pointers `head`/`tail` into
that storage. We embed pointers as indices (pointer minus `buf`), bytes
as natural numbers (values of `uint8_t`), and the storage as a list.
The while-loops of the bulk operations are embedded as fuel-indexed
recursions; every call site supplies enough fuel that the loop runs to
completion exactly as the C loop does on every state the C code can
reach (on states where the C loop would never terminate, the model
returns the state reached when fuel runs out).
-/

/-- Model of `struct ringbuf_t` (ringbuf.c lines 36-41): `buf` is the
backing storage (one cell per byte), `head` and `tail` are the write and
read cursors as indices into `buf`, and `size` is the allocated slot
count (requested capacity + 1, the extra slot being the full/empty
sentinel). -/
structure ringbuf_t where
  buf : List Nat
  head : Nat
  tail : Nat
  size : Nat
deriving DecidableEq, Repr

/-- States a buffer can actually be in: the storage really has `size`
cells and both cursors point inside the storage region, exactly as
guaranteed by construction (`ringbuf_new`/`ringbuf_new_static` allocate
`capacity+1` bytes and reset both cursors to the start). -/
def WellFormed (rb : ringbuf_t) : Prop :=
  rb.buf.length = rb.size ∧ rb.head < rb.size ∧ rb.tail < rb.size

instance (rb : ringbuf_t) : Decidable (WellFormed rb) := by
  unfold WellFormed; infer_instance

/-- ringbuf.c line 99: the allocated slot count. -/
def ringbuf_buffer_size (rb : ringbuf_t) : Nat := rb.size

/-- ringbuf.c line 105: `rb->head = rb->tail = rb->buf` (index 0). -/
def ringbuf_reset (rb : ringbuf_t) : ringbuf_t :=
  { rb with head := 0, tail := 0 }

/-- ringbuf.c line 129: capacity = buffer_size - 1. -/
def ringbuf_capacity (rb : ringbuf_t) : Nat := ringbuf_buffer_size rb - 1

/-- ringbuf.c line 146: the piecewise free-space formula. -/
def ringbuf_bytes_free (rb : ringbuf_t) : Nat :=
  if rb.head ≥ rb.tail then ringbuf_capacity rb - (rb.head - rb.tail)
  else rb.tail - rb.head - 1

/-- ringbuf.c line 155. -/
def ringbuf_bytes_used (rb : ringbuf_t) : Nat :=
  ringbuf_capacity rb - ringbuf_bytes_free rb

/-- ringbuf.c line 161. -/
def ringbuf_is_full (rb : ringbuf_t) : Bool :=
  ringbuf_bytes_free rb == 0

/-- ringbuf.c line 167. -/
def ringbuf_is_empty (rb : ringbuf_t) : Bool :=
  ringbuf_bytes_free rb == ringbuf_capacity rb

/-- ringbuf.c line 190: next logical position after `p`, wrapping at the
end of the storage region (`rb->buf + ((++p - rb->buf) % size)`). -/
def ringbuf_nextp (rb : ringbuf_t) (p : Nat) : Nat :=
  (p + 1) % ringbuf_buffer_size rb

/-- ringbuf.c line 78: `ringbuf_new_static`. The metadata allocation at
line 82 is assumed to succeed (its failure just returns NULL); `buf =
none` models a NULL storage pointer, `buf = some b` an actual region.
The C code stores the supplied pointer, and only if it is non-NULL
resets the cursors and returns the wrapper; on a NULL pointer it frees
the metadata block and returns NULL (lines 91-94). `bufSize` is the
asserted-equal `buf_size` argument (line 81). -/
def ringbuf_new_static (capacity : Nat) (buf : Option (List Nat)) (bufSize : Nat) : Option ringbuf_t :=
  let _ := bufSize
  match buf with
  | none => none
  | some b => some { buf := b, head := 0, tail := 0, size := capacity + 1 }

/-- Model of C `memset(data + start, c, n)` on a list: set cells
`start, ..., start + n - 1` to `c`. -/
def setRange : List Nat → Nat → Nat → Nat → List Nat
  | data, _, 0, _ => data
  | data, start, n+1, c => setRange (data.set start c) (start+1) n c

/-- Model of C `memcpy(data + d, src + s, n)` on lists: copy `n` cells
of `src` starting at `s` into `data` starting at `d`. -/
def copyRange : List Nat → Nat → List Nat → Nat → Nat → List Nat
  | data, _, _, _, 0 => data
  | data, d, src, s, n+1 => copyRange (data.set d (src.getD s 0)) (d+1) src (s+1) n

/-- Model of C `memchr(seg, c, seg.length)`: index of the first cell
equal to `c`, if any. -/
def memchr : List Nat → Nat → Option Nat
  | [], _ => none
  | b :: rest, c => if b = c then some 0 else (memchr rest c).map (fun i => i + 1)

/-- The while-loop of `ringbuf_findchr` (ringbuf.c lines 205-218),
written as a recursion on fuel; `ringbuf_findchr` supplies fuel
`bytes_used + 1`, enough for the recursion (each recursive call advances
`offset` by at least one while it stays below `bytes_used`). `memchr`
compares against the byte value `c % 256` (the C `int` argument is
converted to `unsigned char`). -/
def findchr_loop (rb : ringbuf_t) (c : Nat) : Nat → Nat → Nat
  | 0, _ => ringbuf_bytes_used rb
  | fuel+1, offset =>
    let bytes_used := ringbuf_bytes_used rb
    if offset ≥ bytes_used then bytes_used
    else
      let start := (rb.tail + offset) % ringbuf_buffer_size rb
      let n := min (ringbuf_buffer_size rb - start) (bytes_used - offset)
      match memchr ((rb.buf.drop start).take n) (c % 256) with
      | some i => offset + i
      | none => findchr_loop rb c fuel (offset + n)

/-- ringbuf.c line 202. -/
def ringbuf_findchr (rb : ringbuf_t) (c : Nat) (offset : Nat) : Nat :=
  findchr_loop rb c (ringbuf_bytes_used rb + 1) offset

/-- The while-loop of `ringbuf_memset` (ringbuf.c lines 229-241) on
fuel: write chunks of `c` up to the physical end of storage, wrapping
`head` when it reaches the end. Returns (storage, head, nwritten).
The stored byte value is `c % 256` (C `memset` takes `c` as `int` and
stores it as `unsigned char`). -/
def memset_loop (size c count : Nat) : Nat → List Nat → Nat → Nat → List Nat × Nat × Nat
  | 0, data, head, nwritten => (data, head, nwritten)
  | fuel+1, data, head, nwritten =>
    if nwritten = count then (data, head, nwritten)
    else
      let n := min (size - head) (count - nwritten)
      let data' := setRange data head n (c % 256)
      let head' := head + n
      let head'' := if head' = size then 0 else head'
      memset_loop size c count fuel data' head'' (nwritten + n)

/-- ringbuf.c line 221: fill with a constant byte. Returns the updated
buffer and `nwritten`. The overflow flag is determined by the free
space before the loop (line 227); on overflow the tail is advanced to
one past the new head (line 244). -/
def ringbuf_memset (dst : ringbuf_t) (c len : Nat) : ringbuf_t × Nat :=
  let count := min len (ringbuf_buffer_size dst)
  let r := memset_loop dst.size c count (count + 1) dst.buf dst.head 0
  let dst' := { dst with buf := r.1, head := r.2.1 }
  if count > ringbuf_bytes_free dst then
    ({ dst' with tail := ringbuf_nextp dst' dst'.head }, r.2.2)
  else
    (dst', r.2.2)

/-- The while-loop of `ringbuf_memcpy_into` (ringbuf.c lines 259-270)
on fuel: copy chunks of `src` (tracking the source offset `nread`) up to
the physical end of storage, wrapping `head` when it reaches the end.
Returns (storage, head). -/
def memcpy_into_loop (size : Nat) (src : List Nat) (count : Nat) :
    Nat → List Nat → Nat → Nat → List Nat × Nat
  | 0, data, head, _ => (data, head)
  | fuel+1, data, head, nread =>
    if nread = count then (data, head)
    else
      let n := min (size - head) (count - nread)
      let data' := copyRange data head src nread n
      let head' := head + n
      let head'' := if head' = size then 0 else head'
      memcpy_into_loop size src count fuel data' head'' (nread + n)

/-- ringbuf.c line 251: copy `count` bytes of an external source into
the ring. Returns the updated buffer and the new head
(the C function returns `dst->head`). The overflow flag is the free
space comparison before the loop (line 256); on overflow the tail is
advanced to one past the new head (line 273). -/
def ringbuf_memcpy_into (dst : ringbuf_t) (src : List Nat) (count : Nat) : ringbuf_t × Nat :=
  let r := memcpy_into_loop dst.size src count (count + 1) dst.buf dst.head 0
  let dst' := { dst with buf := r.1, head := r.2 }
  let dst'' :=
    if count > ringbuf_bytes_free dst then
      { dst' with tail := ringbuf_nextp dst' dst'.head }
    else dst'
  (dst'', dst''.head)

/-- The while-loop of `ringbuf_memcpy_from` (ringbuf.c lines 290-300)
on fuel: copy chunks from the ring starting at `tail` into the external
destination (tracking the destination offset `nwritten`), wrapping
`tail` at the physical end. Returns (destination, tail). -/
def memcpy_from_loop (size : Nat) (data : List Nat) (count : Nat) :
    Nat → List Nat → Nat → Nat → List Nat × Nat
  | 0, dst, tail, _ => (dst, tail)
  | fuel+1, dst, tail, nwritten =>
    if nwritten = count then (dst, tail)
    else
      let n := min (size - tail) (count - nwritten)
      let dst' := copyRange dst nwritten data tail n
      let tail' := tail + n
      let tail'' := if tail' = size then 0 else tail'
      memcpy_from_loop size data count fuel dst' tail'' (nwritten + n)

/-- ringbuf.c line 280: copy `count` bytes out of the ring into an
external destination. If `count` exceeds the bytes used, the function
returns NULL before touching anything (lines 283-285): modelled as
result `(none, dst, src)` with both the destination and the buffer
returned unchanged. On success it returns the new tail (the C function
returns `src->tail`), the filled destination and the updated buffer. -/
def ringbuf_memcpy_from (dst : List Nat) (src : ringbuf_t) (count : Nat) :
    Option Nat × List Nat × ringbuf_t :=
  if count > ringbuf_bytes_used src then (none, dst, src)
  else
    let r := memcpy_from_loop src.size src.buf count (count + 1) dst src.tail 0
    (some r.2, r.1, { src with tail := r.2 })

/-- The while-loop of `ringbuf_copy` (ringbuf.c lines 317-332) on fuel:
each round copies the largest run that is contiguous in both the source
(from `stail`) and the destination (at `dhead`), then wraps whichever
cursor reached its physical end. Returns (stail, ddata, dhead, ncopied).
The source storage is never written, so it is a fixed parameter. -/
def copy_loop (ssize dsize : Nat) (sdata : List Nat) (count : Nat) :
    Nat → Nat → List Nat → Nat → Nat → Nat × List Nat × Nat × Nat
  | 0, stail, ddata, dhead, ncopied => (stail, ddata, dhead, ncopied)
  | fuel+1, stail, ddata, dhead, ncopied =>
    if ncopied = count then (stail, ddata, dhead, ncopied)
    else
      let nsrc := min (ssize - stail) (count - ncopied)
      let n := min (dsize - dhead) nsrc
      let ddata' := copyRange ddata dhead sdata stail n
      let stail' := stail + n
      let stail'' := if stail' = ssize then 0 else stail'
      let dhead' := dhead + n
      let dhead'' := if dhead' = dsize then 0 else dhead'
      copy_loop ssize dsize sdata count fuel stail'' ddata' dhead'' (ncopied + n)

/-- ringbuf.c line 306: ring-to-ring copy. Underflow on the source
(`count > src bytes_used`, line 310) returns NULL with both buffers
untouched: modelled as `(none, dst, src)`. Otherwise the overflow flag
is taken from the destination's free space before the loop (line 312),
the loop runs, and on overflow the destination tail is advanced to one
past the new destination head (line 337). Returns the new destination
head (the C function returns `dst->head`) and both updated buffers,
destination first. -/
def ringbuf_copy (dst src : ringbuf_t) (count : Nat) :
    Option Nat × ringbuf_t × ringbuf_t :=
  if count > ringbuf_bytes_used src then (none, dst, src)
  else
    let r := copy_loop src.size dst.size src.buf count (count + 1) src.tail dst.buf dst.head 0
    let src' := { src with tail := r.1 }
    let dst' := { dst with buf := r.2.1, head := r.2.2.1 }
    let dst'' :=
      if count > ringbuf_bytes_free dst then
        { dst' with tail := ringbuf_nextp dst' dst'.head }
      else dst'
    (some dst''.head, dst'', src')

/-- The logical (unread) contents of a buffer: the `bytes_used` bytes
starting at `tail`, in ring order. This is the reference notion of
"contents" that the specification's FIFO, overflow and search properties
quantify over; it is not itself a C function. -/
def contents (rb : ringbuf_t) : List Nat :=
  (List.range (ringbuf_bytes_used rb)).map
    (fun i => rb.buf.getD ((rb.tail + i) % rb.size) 0)

/-- Modelled from the spec (section 4.5): the flattened-view search the
wrap-correctness property compares `ringbuf_findchr` against. On a
flattened (non-wrapped) copy `l` of the buffer's unread contents, return
the least index `i ≥ offset` with `l[i] = c`, or `l.length` if there is
none (or if `offset` is already at or beyond the data present). -/
def flatFindFrom (l : List Nat) (c : Nat) (offset : Nat) : Nat :=
  if h : offset ≥ l.length then l.length
  else if l.getD offset 0 = c then offset
  else flatFindFrom l c (offset + 1)
termination_by l.length - offset
decreasing_by
  simp only [not_le] at h
  omega

/-- One mutating operation of the API, viewed from one buffer: the
relation `Step rb rb'` holds when some single call listed in section 4
of the specification takes a buffer in state `rb` to state `rb'`
(`ringbuf_findchr` takes a const buffer and mutates nothing, so it
induces no step). For the two-buffer `ringbuf_copy`, the buffer may
play either role. -/
inductive Step : ringbuf_t → ringbuf_t → Prop
  | reset (rb : ringbuf_t) : Step rb (ringbuf_reset rb)
  | memset (rb : ringbuf_t) (c len : Nat) : Step rb (ringbuf_memset rb c len).1
  | memcpy_into (rb : ringbuf_t) (src : List Nat) (count : Nat) :
      Step rb (ringbuf_memcpy_into rb src count).1
  | memcpy_from (rb : ringbuf_t) (dst : List Nat) (count : Nat) :
      Step rb (ringbuf_memcpy_from dst rb count).2.2
  | copy_dst (rb other : ringbuf_t) (count : Nat) :
      Step rb (ringbuf_copy rb other count).2.1
  | copy_src (rb other : ringbuf_t) (count : Nat) :
      Step rb (ringbuf_copy other rb count).2.2

/-- Reachability by any finite sequence of the section-4 operations. -/
def Reachable : ringbuf_t → ringbuf_t → Prop :=
  Relation.ReflTransGen Step

theorem mod2 (a s : Nat) (h : a < 2 * s) :
    (a < s ∧ a % s = a) ∨ (s ≤ a ∧ a % s = a - s) := by
  by_cases hc : a < s
  · exact Or.inl ⟨hc, Nat.mod_eq_of_lt hc⟩
  · refine Or.inr ⟨by omega, ?_⟩
    rw [Nat.mod_eq_sub_mod (by omega), Nat.mod_eq_of_lt (by omega)]

theorem setRange_length (data : List Nat) (start n c : Nat) :
    (setRange data start n c).length = data.length := by
  induction n generalizing data start with
  | zero => rfl
  | succ m ih => rw [setRange, ih, List.length_set]

theorem setRange_getElem? (data : List Nat) (start n c q : Nat) :
    (setRange data start n c)[q]? =
      if start ≤ q ∧ q < start + n ∧ q < data.length then some c else data[q]? := by
  induction n generalizing data start with
  | zero => rw [setRange, if_neg (by omega)]
  | succ m ih =>
    rw [setRange, ih, List.length_set]
    by_cases h : start = q
    · subst h
      rw [if_neg (by omega), List.getElem?_set, if_pos rfl]
      by_cases hl : start < data.length
      · rw [if_pos hl, if_pos ⟨Nat.le_refl _, by omega, hl⟩]
      · rw [if_neg hl, if_neg (by omega), List.getElem?_eq_none (by omega)]
    · rw [List.getElem?_set_ne h]
      by_cases hc : start + 1 ≤ q ∧ q < start + 1 + m ∧ q < data.length
      · rw [if_pos hc, if_pos (by omega)]
      · rw [if_neg hc, if_neg (by omega)]

theorem copyRange_length (data : List Nat) (d : Nat) (src : List Nat) (s n : Nat) :
    (copyRange data d src s n).length = data.length := by
  induction n generalizing data d s with
  | zero => rfl
  | succ m ih => rw [copyRange, ih, List.length_set]

theorem copyRange_getElem? (data : List Nat) (d : Nat) (src : List Nat) (s n q : Nat) :
    (copyRange data d src s n)[q]? =
      if d ≤ q ∧ q < d + n ∧ q < data.length
      then some (src.getD (s + (q - d)) 0) else data[q]? := by
  induction n generalizing data d s with
  | zero => rw [copyRange, if_neg (by omega)]
  | succ m ih =>
    rw [copyRange, ih, List.length_set]
    by_cases h : d = q
    · subst h
      rw [if_neg (by omega), List.getElem?_set, if_pos rfl]
      by_cases hl : d < data.length
      · rw [if_pos hl, if_pos ⟨Nat.le_refl _, by omega, hl⟩, Nat.sub_self, Nat.add_zero]
      · rw [if_neg hl, if_neg (by omega), List.getElem?_eq_none (by omega)]
    · rw [List.getElem?_set_ne h]
      by_cases hc : d + 1 ≤ q ∧ q < d + 1 + m ∧ q < data.length
      · rw [if_pos hc, if_pos (by omega)]
        have he : s + 1 + (q - (d + 1)) = s + (q - d) := by omega
        rw [he]
      · rw [if_neg hc, if_neg (by omega)]

theorem wf_size_pos (rb : ringbuf_t) (hwf : WellFormed rb) : 0 < rb.size := by
  obtain ⟨-, h2, -⟩ := hwf
  omega

theorem free_le_capacity (rb : ringbuf_t) (hwf : WellFormed rb) :
    ringbuf_bytes_free rb ≤ ringbuf_capacity rb := by
  obtain ⟨h1, h2, h3⟩ := hwf
  simp only [ringbuf_bytes_free, ringbuf_capacity, ringbuf_buffer_size]
  split <;> omega

theorem used_add_free (rb : ringbuf_t) (hwf : WellFormed rb) :
    ringbuf_bytes_used rb + ringbuf_bytes_free rb = ringbuf_capacity rb := by
  have hle := free_le_capacity rb hwf
  simp only [ringbuf_bytes_used]
  omega

theorem used_eq (rb : ringbuf_t) (hwf : WellFormed rb) :
    ringbuf_bytes_used rb = (rb.head + (rb.size - rb.tail)) % rb.size := by
  obtain ⟨h1, h2, h3⟩ := hwf
  have hs0 : 0 < rb.size := by omega
  simp only [ringbuf_bytes_used, ringbuf_bytes_free, ringbuf_capacity, ringbuf_buffer_size]
  rcases mod2 (rb.head + (rb.size - rb.tail)) rb.size (by omega) with ⟨a, b⟩ | ⟨a, b⟩ <;>
    split <;> omega

theorem length_contents (rb : ringbuf_t) :
    (contents rb).length = ringbuf_bytes_used rb := by
  simp [contents]

theorem contents_getElem? (rb : ringbuf_t) (i : Nat) (h : i < ringbuf_bytes_used rb) :
    (contents rb)[i]? = some (rb.buf.getD ((rb.tail + i) % rb.size) 0) := by
  simp [contents, List.getElem?_map, List.getElem?_range h]

theorem contents_eq_of (rb : ringbuf_t) (l : List Nat)
    (hlen : l.length = ringbuf_bytes_used rb)
    (hp : ∀ n, n < ringbuf_bytes_used rb →
      l[n]? = some (rb.buf.getD ((rb.tail + n) % rb.size) 0)) :
    contents rb = l := by
  apply List.ext_getElem?
  intro n
  by_cases hn : n < ringbuf_bytes_used rb
  · rw [contents_getElem? _ _ hn, hp n hn]
  · rw [List.getElem?_eq_none (by rw [length_contents]; omega),
        List.getElem?_eq_none (by rw [hlen]; omega)]

theorem memcpy_into_loop_done (s : Nat) (src : List Nat) (count fuel : Nat)
    (data : List Nat) (head : Nat) :
    memcpy_into_loop s src count (fuel + 1) data head count = (data, head) := by
  rw [memcpy_into_loop, if_pos rfl]

theorem memcpy_into_loop_step (s : Nat) (src : List Nat) (count fuel : Nat)
    (data : List Nat) (head nread : Nat) (h : nread ≠ count) :
    memcpy_into_loop s src count (fuel + 1) data head nread =
      memcpy_into_loop s src count fuel
        (copyRange data head src nread (min (s - head) (count - nread)))
        (if head + min (s - head) (count - nread) = s then 0
         else head + min (s - head) (count - nread))
        (nread + min (s - head) (count - nread)) := by
  rw [memcpy_into_loop, if_neg h]

theorem memcpy_into_loop_spec (s : Nat) (src data : List Nat) (count head : Nat)
    (hlen : data.length = s) (hh : head < s) (hcount : count ≤ s) :
    (memcpy_into_loop s src count (count + 1) data head 0).2 = (head + count) % s
    ∧ (memcpy_into_loop s src count (count + 1) data head 0).1.length = s
    ∧ ∀ q, q < s →
        (memcpy_into_loop s src count (count + 1) data head 0).1[q]? =
          if (q + (s - head)) % s < count
          then some (src.getD ((q + (s - head)) % s) 0)
          else data[q]? := by
  have hs0 : 0 < s := by omega
  rcases Nat.eq_zero_or_pos count with hc0 | hcpos
  · subst hc0
    rw [memcpy_into_loop_done]
    refine ⟨by rw [Nat.add_zero, Nat.mod_eq_of_lt hh], hlen, ?_⟩
    intro q hq
    rw [if_neg (by omega)]
  obtain ⟨m, rfl⟩ : ∃ m, count = m + 1 := ⟨count - 1, by omega⟩
  by_cases hA : m + 1 ≤ s - head
  · -- single contiguous chunk
    rw [memcpy_into_loop_step s src (m+1) (m+1) data head 0 (by omega)]
    have hmin : min (s - head) (m + 1 - 0) = m + 1 := by omega
    rw [hmin, Nat.zero_add, memcpy_into_loop_done]
    refine ⟨?_, by rw [copyRange_length, hlen], ?_⟩
    · by_cases hw : head + (m + 1) = s
      · rw [if_pos hw, hw, Nat.mod_self]
      · rw [if_neg hw, Nat.mod_eq_of_lt (by omega)]
    · intro q hq
      rw [copyRange_getElem?, hlen]
      rcases mod2 (q + (s - head)) s (by omega) with ⟨a, b⟩ | ⟨a, b⟩
      · -- q < head : untouched, logical index at least count
        rw [b, if_neg (by omega), if_neg (by omega)]
      · -- head ≤ q
        rw [b]
        by_cases hin : q - head < m + 1
        · rw [if_pos (by omega), if_pos (by omega), Nat.zero_add]
          have he : q - head = q + (s - head) - s := by omega
          rw [he]
        · rw [if_neg (by omega), if_neg (by omega)]
  · -- wrapping write: two chunks
    have hsh1 : 1 ≤ s - head := by omega
    have hm2 : 1 ≤ m := by omega
    obtain ⟨k, rfl⟩ : ∃ k, m = k + 1 := ⟨m - 1, by omega⟩
    rw [memcpy_into_loop_step s src (k+2) (k+2) data head 0 (by omega)]
    have hmin : min (s - head) (k + 2 - 0) = s - head := by omega
    rw [hmin, Nat.zero_add]
    have hwrap : head + (s - head) = s := by omega
    rw [if_pos hwrap]
    rw [memcpy_into_loop_step s src (k+2) (k+1) _ 0 (s - head) (by omega)]
    have hmin2 : min (s - 0) (k + 2 - (s - head)) = k + 2 - (s - head) := by omega
    rw [hmin2]
    have hnw : ¬ (0 + (k + 2 - (s - head)) = s) := by omega
    rw [if_neg hnw, Nat.zero_add]
    have hdone : s - head + (k + 2 - (s - head)) = k + 2 := by omega
    rw [hdone, memcpy_into_loop_done]
    refine ⟨?_, by rw [copyRange_length, copyRange_length, hlen], ?_⟩
    · rw [Nat.mod_eq_sub_mod (by omega), Nat.mod_eq_of_lt (by omega)]
      omega
    · intro q hq
      rw [copyRange_getElem?, copyRange_length, hlen, copyRange_getElem?, hlen]
      rcases mod2 (q + (s - head)) s (by omega) with ⟨a, b⟩ | ⟨a, b⟩
      · -- q < head: logical index q + (s - head), in second chunk iff < count
        rw [b]
        by_cases hin : q + (s - head) < k + 2
        · rw [if_pos (by omega), if_pos (by omega)]
          have he : s - head + (q - 0) = q + (s - head) := by omega
          rw [he]
        · rw [if_neg (by omega), if_neg (by omega), if_neg (by omega)]
      · -- head ≤ q: first chunk, logical index q - head < s - head ≤ count
        rw [b, if_neg (by omega), if_pos (by omega), if_pos (by omega), Nat.zero_add]
        have he : q - head = q + (s - head) - s := by omega
        rw [he]

theorem memset_loop_done (s c count fuel : Nat) (data : List Nat) (head : Nat) :
    memset_loop s c count (fuel + 1) data head count = (data, head, count) := by
  rw [memset_loop, if_pos rfl]

theorem memset_loop_step (s c count fuel : Nat) (data : List Nat) (head nwritten : Nat)
    (h : nwritten ≠ count) :
    memset_loop s c count (fuel + 1) data head nwritten =
      memset_loop s c count fuel
        (setRange data head (min (s - head) (count - nwritten)) (c % 256))
        (if head + min (s - head) (count - nwritten) = s then 0
         else head + min (s - head) (count - nwritten))
        (nwritten + min (s - head) (count - nwritten)) := by
  rw [memset_loop, if_neg h]

theorem memset_loop_spec (s c : Nat) (data : List Nat) (count head : Nat)
    (hlen : data.length = s) (hh : head < s) (hcount : count ≤ s) :
    (memset_loop s c count (count + 1) data head 0).2.2 = count
    ∧ (memset_loop s c count (count + 1) data head 0).2.1 = (head + count) % s
    ∧ (memset_loop s c count (count + 1) data head 0).1.length = s
    ∧ ∀ q, q < s →
        (memset_loop s c count (count + 1) data head 0).1[q]? =
          if (q + (s - head)) % s < count
          then some (c % 256)
          else data[q]? := by
  have hs0 : 0 < s := by omega
  rcases Nat.eq_zero_or_pos count with hc0 | hcpos
  · subst hc0
    rw [memset_loop_done]
    refine ⟨rfl, by rw [Nat.add_zero, Nat.mod_eq_of_lt hh], hlen, ?_⟩
    intro q hq
    rw [if_neg (by omega)]
  obtain ⟨m, rfl⟩ : ∃ m, count = m + 1 := ⟨count - 1, by omega⟩
  by_cases hA : m + 1 ≤ s - head
  · rw [memset_loop_step s c (m+1) (m+1) data head 0 (by omega)]
    have hmin : min (s - head) (m + 1 - 0) = m + 1 := by omega
    rw [hmin, Nat.zero_add, memset_loop_done]
    refine ⟨rfl, ?_, by rw [setRange_length, hlen], ?_⟩
    · by_cases hw : head + (m + 1) = s
      · rw [if_pos hw, hw, Nat.mod_self]
      · rw [if_neg hw, Nat.mod_eq_of_lt (show head + (m + 1) < s by omega)]
    · intro q hq
      rw [setRange_getElem?, hlen]
      rcases mod2 (q + (s - head)) s (by omega) with ⟨a, b⟩ | ⟨a, b⟩
      · rw [b, if_neg (by omega), if_neg (by omega)]
      · rw [b]
        by_cases hin : q - head < m + 1
        · rw [if_pos (by omega), if_pos (by omega)]
        · rw [if_neg (by omega), if_neg (by omega)]
  · have hsh1 : 1 ≤ s - head := by omega
    obtain ⟨k, rfl⟩ : ∃ k, m = k + 1 := ⟨m - 1, by omega⟩
    rw [memset_loop_step s c (k+2) (k+2) data head 0 (by omega)]
    have hmin : min (s - head) (k + 2 - 0) = s - head := by omega
    rw [hmin, Nat.zero_add]
    have hwrap : head + (s - head) = s := by omega
    rw [if_pos hwrap]
    rw [memset_loop_step s c (k+2) (k+1) _ 0 (s - head) (by omega)]
    have hmin2 : min (s - 0) (k + 2 - (s - head)) = k + 2 - (s - head) := by omega
    rw [hmin2]
    have hnw : ¬ (0 + (k + 2 - (s - head)) = s) := by omega
    rw [if_neg hnw, Nat.zero_add]
    have hdone : s - head + (k + 2 - (s - head)) = k + 2 := by omega
    rw [hdone, memset_loop_done]
    refine ⟨rfl, ?_, by rw [setRange_length, setRange_length, hlen], ?_⟩
    · rw [Nat.mod_eq_sub_mod (show s ≤ head + (k + 2) by omega),
          Nat.mod_eq_of_lt (show head + (k + 2) - s < s by omega)]
      show k + 2 - (s - head) = head + (k + 2) - s
      omega
    · intro q hq
      rw [setRange_getElem?, setRange_length, hlen, setRange_getElem?, hlen]
      rcases mod2 (q + (s - head)) s (by omega) with ⟨a, b⟩ | ⟨a, b⟩
      · rw [b]
        by_cases hin : q + (s - head) < k + 2
        · rw [if_pos (by omega), if_pos (by omega)]
        · rw [if_neg (by omega), if_neg (by omega), if_neg (by omega)]
      · rw [b, if_neg (by omega), if_pos (by omega), if_pos (by omega)]

theorem memcpy_from_loop_done (s : Nat) (data : List Nat) (count fuel : Nat)
    (dst : List Nat) (tail : Nat) :
    memcpy_from_loop s data count (fuel + 1) dst tail count = (dst, tail) := by
  rw [memcpy_from_loop, if_pos rfl]

theorem memcpy_from_loop_step (s : Nat) (data : List Nat) (count fuel : Nat)
    (dst : List Nat) (tail nwritten : Nat) (h : nwritten ≠ count) :
    memcpy_from_loop s data count (fuel + 1) dst tail nwritten =
      memcpy_from_loop s data count fuel
        (copyRange dst nwritten data tail (min (s - tail) (count - nwritten)))
        (if tail + min (s - tail) (count - nwritten) = s then 0
         else tail + min (s - tail) (count - nwritten))
        (nwritten + min (s - tail) (count - nwritten)) := by
  rw [memcpy_from_loop, if_neg h]

theorem memcpy_from_loop_spec (s : Nat) (data dst : List Nat) (count tail : Nat)
    (_hlen : data.length = s) (ht : tail < s) (hcount : count ≤ s) :
    (memcpy_from_loop s data count (count + 1) dst tail 0).2 = (tail + count) % s
    ∧ (memcpy_from_loop s data count (count + 1) dst tail 0).1.length = dst.length
    ∧ ∀ q,
        (memcpy_from_loop s data count (count + 1) dst tail 0).1[q]? =
          if q < count ∧ q < dst.length
          then some (data.getD ((tail + q) % s) 0)
          else dst[q]? := by
  have hs0 : 0 < s := by omega
  rcases Nat.eq_zero_or_pos count with hc0 | hcpos
  · subst hc0
    rw [memcpy_from_loop_done]
    refine ⟨by rw [Nat.add_zero, Nat.mod_eq_of_lt ht], rfl, ?_⟩
    intro q
    rw [if_neg (by omega)]
  obtain ⟨m, rfl⟩ : ∃ m, count = m + 1 := ⟨count - 1, by omega⟩
  by_cases hA : m + 1 ≤ s - tail
  · rw [memcpy_from_loop_step s data (m+1) (m+1) dst tail 0 (by omega)]
    have hmin : min (s - tail) (m + 1 - 0) = m + 1 := by omega
    rw [hmin, Nat.zero_add, memcpy_from_loop_done]
    refine ⟨?_, by rw [copyRange_length], ?_⟩
    · by_cases hw : tail + (m + 1) = s
      · rw [if_pos hw, hw, Nat.mod_self]
      · rw [if_neg hw, Nat.mod_eq_of_lt (by omega)]
    · intro q
      rw [copyRange_getElem?]
      by_cases hq : q < m + 1 ∧ q < dst.length
      · rw [if_pos ⟨by omega, by omega, hq.2⟩, if_pos hq]
        have he : tail + (q - 0) = (tail + q) % s := by
          rw [Nat.mod_eq_of_lt (by omega)]
          omega
        rw [he]
      · rw [if_neg (by omega), if_neg hq]
  · have hst1 : 1 ≤ s - tail := by omega
    obtain ⟨k, rfl⟩ : ∃ k, m = k + 1 := ⟨m - 1, by omega⟩
    rw [memcpy_from_loop_step s data (k+2) (k+2) dst tail 0 (by omega)]
    have hmin : min (s - tail) (k + 2 - 0) = s - tail := by omega
    rw [hmin, Nat.zero_add]
    have hwrap : tail + (s - tail) = s := by omega
    rw [if_pos hwrap]
    rw [memcpy_from_loop_step s data (k+2) (k+1) _ 0 (s - tail) (by omega)]
    have hmin2 : min (s - 0) (k + 2 - (s - tail)) = k + 2 - (s - tail) := by omega
    rw [hmin2]
    have hnw : ¬ (0 + (k + 2 - (s - tail)) = s) := by omega
    rw [if_neg hnw, Nat.zero_add]
    have hdone : s - tail + (k + 2 - (s - tail)) = k + 2 := by omega
    rw [hdone, memcpy_from_loop_done]
    refine ⟨?_, by rw [copyRange_length, copyRange_length], ?_⟩
    · rw [Nat.mod_eq_sub_mod (by omega), Nat.mod_eq_of_lt (by omega)]
      omega
    · intro q
      rw [copyRange_getElem?, copyRange_length, copyRange_getElem?]
      by_cases hq1 : q < s - tail ∧ q < dst.length
      · -- first chunk
        rw [if_neg (by omega), if_pos ⟨by omega, by omega, hq1.2⟩,
            if_pos ⟨by omega, hq1.2⟩]
        have he : tail + (q - 0) = (tail + q) % s := by
          rw [Nat.mod_eq_of_lt (by omega)]
          omega
        rw [he]
      · by_cases hq2 : q < k + 2 ∧ q < dst.length
        · -- second chunk (wrapped): s - tail ≤ q
          rw [if_pos ⟨by omega, by omega, hq2.2⟩, if_pos hq2]
          have he : 0 + (q - (s - tail)) = (tail + q) % s := by
            rw [Nat.mod_eq_sub_mod (by omega), Nat.mod_eq_of_lt (by omega)]
            omega
          rw [he]
        · rw [if_neg (by omega), if_neg (by omega), if_neg hq2]

theorem ringbuf_memcpy_into_eq (rb : ringbuf_t) (bs : List Nat) (K : Nat) :
    ringbuf_memcpy_into rb bs K =
      (⟨(memcpy_into_loop rb.size bs K (K + 1) rb.buf rb.head 0).1,
        (memcpy_into_loop rb.size bs K (K + 1) rb.buf rb.head 0).2,
        (if K > ringbuf_bytes_free rb
         then ((memcpy_into_loop rb.size bs K (K + 1) rb.buf rb.head 0).2 + 1) % rb.size
         else rb.tail),
        rb.size⟩,
       (memcpy_into_loop rb.size bs K (K + 1) rb.buf rb.head 0).2) := by
  by_cases hov : K > ringbuf_bytes_free rb <;>
    simp [ringbuf_memcpy_into, ringbuf_nextp, ringbuf_buffer_size, hov]

theorem ringbuf_memset_eq (rb : ringbuf_t) (c len : Nat) :
    ringbuf_memset rb c len =
      (⟨(memset_loop rb.size c (min len rb.size) (min len rb.size + 1) rb.buf rb.head 0).1,
        (memset_loop rb.size c (min len rb.size) (min len rb.size + 1) rb.buf rb.head 0).2.1,
        (if min len rb.size > ringbuf_bytes_free rb
         then ((memset_loop rb.size c (min len rb.size) (min len rb.size + 1) rb.buf rb.head 0).2.1 + 1) % rb.size
         else rb.tail),
        rb.size⟩,
       (memset_loop rb.size c (min len rb.size) (min len rb.size + 1) rb.buf rb.head 0).2.2) := by
  by_cases hov : min len rb.size > ringbuf_bytes_free rb <;>
    simp [ringbuf_memset, ringbuf_nextp, ringbuf_buffer_size, hov]

theorem ringbuf_memcpy_from_eq (dst : List Nat) (src : ringbuf_t) (count : Nat)
    (h : ¬ count > ringbuf_bytes_used src) :
    ringbuf_memcpy_from dst src count =
      (some (memcpy_from_loop src.size src.buf count (count + 1) dst src.tail 0).2,
       (memcpy_from_loop src.size src.buf count (count + 1) dst src.tail 0).1,
       ⟨src.buf, src.head,
        (memcpy_from_loop src.size src.buf count (count + 1) dst src.tail 0).2,
        src.size⟩) := by
  simp [ringbuf_memcpy_from, h]


theorem mod3 (a s : Nat) (h : a < 3 * s) :
    (a < s ∧ a % s = a) ∨ (s ≤ a ∧ a < 2 * s ∧ a % s = a - s)
    ∨ (2 * s ≤ a ∧ a % s = a - 2 * s) := by
  by_cases hc : a < s
  · exact Or.inl ⟨hc, Nat.mod_eq_of_lt hc⟩
  by_cases hc2 : a < 2 * s
  · refine Or.inr (Or.inl ⟨by omega, hc2, ?_⟩)
    rw [Nat.mod_eq_sub_mod (by omega), Nat.mod_eq_of_lt (by omega)]
  · refine Or.inr (Or.inr ⟨by omega, ?_⟩)
    rw [Nat.mod_eq_sub_mod (by omega), Nat.mod_eq_sub_mod (by omega),
        Nat.mod_eq_of_lt (by omega)]
    omega

theorem head_modeq (rb : ringbuf_t) (hwf : WellFormed rb) :
    (rb.tail + ringbuf_bytes_used rb) % rb.size = rb.head := by
  obtain ⟨h1, h2, h3⟩ := hwf
  rw [used_eq rb ⟨h1, h2, h3⟩]
  conv_lhs => rw [Nat.add_comm rb.tail ((rb.head + (rb.size - rb.tail)) % rb.size)]
  rw [Nat.mod_add_mod,
      show rb.head + (rb.size - rb.tail) + rb.tail = rb.head + rb.size by omega,
      Nat.add_mod_right, Nat.mod_eq_of_lt h2]

theorem write_contents (rb rb' : ringbuf_t) (K : Nat) (newv : Nat → Nat)
    (hwf : WellFormed rb) (hK : K ≤ rb.size)
    (hsize : rb'.size = rb.size)
    (hlen : rb'.buf.length = rb.size)
    (hd : ∀ q, q < rb.size → rb'.buf[q]? =
        if (q + (rb.size - rb.head)) % rb.size < K
        then some (newv ((q + (rb.size - rb.head)) % rb.size))
        else rb.buf[q]?)
    (hh : rb'.head = (rb.head + K) % rb.size)
    (ht : rb'.tail = if K > ringbuf_bytes_free rb
        then ((rb.head + K) % rb.size + 1) % rb.size else rb.tail) :
    ringbuf_bytes_used rb' = min (ringbuf_bytes_used rb + K) (ringbuf_capacity rb)
    ∧ contents rb' =
        (contents rb ++ (List.range K).map newv).drop (K - ringbuf_bytes_free rb) := by
  obtain ⟨h1, h2, h3⟩ := hwf
  have hs0 : 0 < rb.size := by omega
  have hu := used_eq rb ⟨h1, h2, h3⟩
  have huf := used_add_free rb ⟨h1, h2, h3⟩
  have hcap : ringbuf_capacity rb = rb.size - 1 := rfl
  have hmu := head_modeq rb ⟨h1, h2, h3⟩
  have hh' : rb'.head < rb.size := by rw [hh]; exact Nat.mod_lt _ hs0
  have ht' : rb'.tail < rb.size := by
    rw [ht]; split
    · exact Nat.mod_lt _ hs0
    · exact h3
  have hwf' : WellFormed rb' :=
    ⟨by rw [hsize]; exact hlen, by rw [hsize]; exact hh', by rw [hsize]; exact ht'⟩
  have hu' := used_eq rb' hwf'
  rw [hsize, hh, ht] at hu'
  have hd' : ∀ q, q < rb.size → rb'.buf.getD q 0 =
      (if (q + (rb.size - rb.head)) % rb.size < K
       then newv ((q + (rb.size - rb.head)) % rb.size)
       else rb.buf.getD q 0) := by
    intro q hq
    rw [List.getD_eq_getElem?_getD, hd q hq]
    split
    · rfl
    · rw [List.getD_eq_getElem?_getD]
  by_cases hov : K > ringbuf_bytes_free rb
  · -- overflow: the buffer ends up full
    rw [if_pos hov] at hu'
    have hHlt : (rb.head + K) % rb.size < rb.size := Nat.mod_lt _ hs0
    have hT := mod2 ((rb.head + K) % rb.size + 1) rb.size (by omega)
    have hU' := mod2 ((rb.head + K) % rb.size +
        (rb.size - ((rb.head + K) % rb.size + 1) % rb.size)) rb.size (by omega)
    have huval : ringbuf_bytes_used rb' = rb.size - 1 := by
      rcases hT with ⟨a, b⟩ | ⟨a, b⟩ <;> rcases hU' with ⟨a2, b2⟩ | ⟨a2, b2⟩ <;> omega
    refine ⟨by omega, ?_⟩
    refine contents_eq_of rb' _ ?_ ?_
    · rw [List.length_drop, List.length_append, length_contents,
          List.length_map, List.length_range]
      omega
    · intro n hn
      have hnlt : n < rb.size - 1 := by omega
      rw [List.getElem?_drop, List.getElem?_append, length_contents]
      rw [hsize, ht, if_pos hov]
      -- flatten the slot index (tail' + n) % size to a single mod
      rw [Nat.mod_add_mod,
          show (rb.head + K) % rb.size + 1 + n = (rb.head + K) % rb.size + (1 + n) by omega,
          Nat.mod_add_mod]
      have hσlt : (rb.head + K + (1 + n)) % rb.size < rb.size := Nat.mod_lt _ hs0
      rw [hd' _ hσlt]
      -- flatten the logical index of that slot to (K + (1 + n)) % size
      rw [Nat.mod_add_mod,
          show rb.head + K + (1 + n) + (rb.size - rb.head) = K + (1 + n) + rb.size by omega,
          Nat.add_mod_right]
      by_cases hm : K - ringbuf_bytes_free rb + n < ringbuf_bytes_used rb
      · -- a surviving old byte
        rw [if_pos hm, contents_getElem? rb _ hm]
        rw [Nat.mod_eq_of_lt (show K + (1 + n) < rb.size by omega)]
        rw [if_neg (show ¬ K + (1 + n) < K by omega)]
        have hστ : (rb.head + K + (1 + n)) % rb.size =
            (rb.tail + (K - ringbuf_bytes_free rb + n)) % rb.size := by
          calc (rb.head + K + (1 + n)) % rb.size
              = ((rb.tail + ringbuf_bytes_used rb) % rb.size + (K + (1 + n))) % rb.size := by
                rw [hmu, Nat.add_assoc]
            _ = (rb.tail + ringbuf_bytes_used rb + (K + (1 + n))) % rb.size :=
                Nat.mod_add_mod _ _ _
            _ = (rb.tail + (K - ringbuf_bytes_free rb + n) + rb.size) % rb.size := by
                rw [show rb.tail + ringbuf_bytes_used rb + (K + (1 + n)) =
                    rb.tail + (K - ringbuf_bytes_free rb + n) + rb.size by omega]
            _ = (rb.tail + (K - ringbuf_bytes_free rb + n)) % rb.size :=
                Nat.add_mod_right _ _
        rw [hστ]
      · -- a freshly written byte
        rw [if_neg hm]
        have hKi : K - ringbuf_bytes_free rb + n - ringbuf_bytes_used rb < K := by omega
        rw [List.getElem?_map, List.getElem?_range hKi]
        rw [Nat.mod_eq_sub_mod (show rb.size ≤ K + (1 + n) by omega),
            Nat.mod_eq_of_lt (show K + (1 + n) - rb.size < rb.size by omega)]
        rw [if_pos (show K + (1 + n) - rb.size < K by omega)]
        rw [show K + (1 + n) - rb.size =
            K - ringbuf_bytes_free rb + n - ringbuf_bytes_used rb by omega]
        rw [Option.map_some']
  · -- no overflow: all old bytes survive
    rw [if_neg hov] at hu'
    have hU' := mod2 ((rb.head + K) % rb.size + (rb.size - rb.tail)) rb.size (by omega)
    have hH := mod2 (rb.head + K) rb.size (by omega)
    have hUm := mod2 (rb.head + (rb.size - rb.tail)) rb.size (by omega)
    have huval : ringbuf_bytes_used rb' = ringbuf_bytes_used rb + K := by
      rcases hUm with ⟨a1, b1⟩ | ⟨a1, b1⟩ <;> rcases hH with ⟨a2, b2⟩ | ⟨a2, b2⟩ <;>
        rcases hU' with ⟨a3, b3⟩ | ⟨a3, b3⟩ <;> omega
    have hd0 : K - ringbuf_bytes_free rb = 0 := by omega
    rw [hd0, List.drop_zero]
    refine ⟨by omega, ?_⟩
    refine contents_eq_of rb' _ ?_ ?_
    · rw [List.length_append, length_contents, List.length_map, List.length_range]
      omega
    · intro n hn
      have hnlt : n < ringbuf_bytes_used rb + K := by omega
      rw [List.getElem?_append, length_contents]
      rw [hsize, ht, if_neg hov]
      have hσlt : (rb.tail + n) % rb.size < rb.size := Nat.mod_lt _ hs0
      rw [hd' _ hσlt]
      -- flatten the logical index of slot (tail + n) % size
      rw [Nat.mod_add_mod]
      have hns : n < rb.size - 1 := by omega
      have hIm := mod3 (rb.tail + n + (rb.size - rb.head)) rb.size (by omega)
      by_cases hm : n < ringbuf_bytes_used rb
      · rw [if_pos hm, contents_getElem? rb _ hm]
        have hidx_ge : ¬ (rb.tail + n + (rb.size - rb.head)) % rb.size < K := by
          rcases hUm with ⟨a1, b1⟩ | ⟨a1, b1⟩ <;>
            rcases hIm with ⟨a2, b2⟩ | ⟨a2, a2', b2⟩ | ⟨a2, b2⟩ <;> omega
        rw [if_neg hidx_ge]
      · rw [if_neg hm]
        have hKi : n - ringbuf_bytes_used rb < K := by omega
        rw [List.getElem?_map, List.getElem?_range hKi]
        have hidx_lt : (rb.tail + n + (rb.size - rb.head)) % rb.size < K := by
          rcases hUm with ⟨a1, b1⟩ | ⟨a1, b1⟩ <;>
            rcases hIm with ⟨a2, b2⟩ | ⟨a2, a2', b2⟩ | ⟨a2, b2⟩ <;> omega
        rw [if_pos hidx_lt]
        have hidx_eq : (rb.tail + n + (rb.size - rb.head)) % rb.size =
            n - ringbuf_bytes_used rb := by
          rcases hUm with ⟨a1, b1⟩ | ⟨a1, b1⟩ <;>
            rcases hIm with ⟨a2, b2⟩ | ⟨a2, a2', b2⟩ | ⟨a2, b2⟩ <;> omega
        rw [hidx_eq, Option.map_some']

theorem memset_loop_wf (s c count : Nat) :
    ∀ fuel (data : List Nat) (head nwritten : Nat), data.length = s → head < s →
      (memset_loop s c count fuel data head nwritten).1.length = s
      ∧ (memset_loop s c count fuel data head nwritten).2.1 < s := by
  intro fuel
  induction fuel with
  | zero => intro data head nwritten hl hh; exact ⟨hl, hh⟩
  | succ m ih =>
    intro data head nwritten hl hh
    rw [memset_loop]
    by_cases hc : nwritten = count
    · rw [if_pos hc]; exact ⟨hl, hh⟩
    · rw [if_neg hc]
      apply ih
      · rw [setRange_length, hl]
      · split <;> omega

theorem memcpy_into_loop_wf (s : Nat) (src : List Nat) (count : Nat) :
    ∀ fuel (data : List Nat) (head nread : Nat), data.length = s → head < s →
      (memcpy_into_loop s src count fuel data head nread).1.length = s
      ∧ (memcpy_into_loop s src count fuel data head nread).2 < s := by
  intro fuel
  induction fuel with
  | zero => intro data head nread hl hh; exact ⟨hl, hh⟩
  | succ m ih =>
    intro data head nread hl hh
    rw [memcpy_into_loop]
    by_cases hc : nread = count
    · rw [if_pos hc]; exact ⟨hl, hh⟩
    · rw [if_neg hc]
      apply ih
      · rw [copyRange_length, hl]
      · split <;> omega

theorem memcpy_from_loop_wf (s : Nat) (data : List Nat) (count : Nat) :
    ∀ fuel (dst : List Nat) (tail nwritten : Nat), tail < s →
      (memcpy_from_loop s data count fuel dst tail nwritten).2 < s := by
  intro fuel
  induction fuel with
  | zero => intro dst tail nwritten hh; exact hh
  | succ m ih =>
    intro dst tail nwritten hh
    rw [memcpy_from_loop]
    by_cases hc : nwritten = count
    · rw [if_pos hc]; exact hh
    · rw [if_neg hc]
      apply ih
      split <;> omega

theorem copy_loop_src_wf (ssize dsize : Nat) (sdata : List Nat) (count : Nat) :
    ∀ fuel (stail : Nat) (ddata : List Nat) (dhead ncopied : Nat), stail < ssize →
      (copy_loop ssize dsize sdata count fuel stail ddata dhead ncopied).1 < ssize := by
  intro fuel
  induction fuel with
  | zero => intro stail ddata dhead ncopied hh; exact hh
  | succ m ih =>
    intro stail ddata dhead ncopied hh
    rw [copy_loop]
    by_cases hc : ncopied = count
    · rw [if_pos hc]; exact hh
    · rw [if_neg hc]
      apply ih
      split <;> omega

theorem copy_loop_dst_wf (ssize dsize : Nat) (sdata : List Nat) (count : Nat) :
    ∀ fuel (stail : Nat) (ddata : List Nat) (dhead ncopied : Nat),
      ddata.length = dsize → dhead < dsize →
      (copy_loop ssize dsize sdata count fuel stail ddata dhead ncopied).2.1.length = dsize
      ∧ (copy_loop ssize dsize sdata count fuel stail ddata dhead ncopied).2.2.1 < dsize := by
  intro fuel
  induction fuel with
  | zero => intro stail ddata dhead ncopied hl hh; exact ⟨hl, hh⟩
  | succ m ih =>
    intro stail ddata dhead ncopied hl hh
    rw [copy_loop]
    by_cases hc : ncopied = count
    · rw [if_pos hc]; exact ⟨hl, hh⟩
    · rw [if_neg hc]
      apply ih
      · rw [copyRange_length, hl]
      · split <;> omega

theorem step_wf (rb rb' : ringbuf_t) (hstep : Step rb rb') (hwf : WellFormed rb) :
    WellFormed rb' := by
  obtain ⟨h1, h2, h3⟩ := hwf
  have hs0 : 0 < rb.size := by omega
  cases hstep with
  | reset =>
    exact ⟨h1, hs0, hs0⟩
  | memset c len =>
    rw [ringbuf_memset_eq]
    obtain ⟨e1, e2⟩ := memset_loop_wf rb.size c (min len rb.size)
      (min len rb.size + 1) rb.buf rb.head 0 h1 h2
    refine ⟨e1, e2, ?_⟩
    split
    · exact Nat.mod_lt _ hs0
    · exact h3
  | memcpy_into src count =>
    rw [ringbuf_memcpy_into_eq]
    obtain ⟨e1, e2⟩ := memcpy_into_loop_wf rb.size src count
      (count + 1) rb.buf rb.head 0 h1 h2
    refine ⟨e1, e2, ?_⟩
    split
    · exact Nat.mod_lt _ hs0
    · exact h3
  | memcpy_from dst count =>
    by_cases hc : count > ringbuf_bytes_used rb
    · unfold ringbuf_memcpy_from
      rw [if_pos hc]
      exact ⟨h1, h2, h3⟩
    · rw [ringbuf_memcpy_from_eq dst rb count hc]
      exact ⟨h1, h2, memcpy_from_loop_wf rb.size rb.buf count (count + 1) dst rb.tail 0 h3⟩
  | copy_dst other count =>
    by_cases hc : count > ringbuf_bytes_used other
    · unfold ringbuf_copy
      rw [if_pos hc]
      exact ⟨h1, h2, h3⟩
    · unfold ringbuf_copy
      rw [if_neg hc]
      obtain ⟨e1, e2⟩ := copy_loop_dst_wf other.size rb.size other.buf count
        (count + 1) other.tail rb.buf rb.head 0 h1 h2
      by_cases hov : count > ringbuf_bytes_free rb
      · simp only [if_pos hov]
        exact ⟨e1, e2, Nat.mod_lt _ hs0⟩
      · simp only [if_neg hov]
        exact ⟨e1, e2, h3⟩
  | copy_src other count =>
    by_cases hc : count > ringbuf_bytes_used rb
    · unfold ringbuf_copy
      rw [if_pos hc]
      exact ⟨h1, h2, h3⟩
    · unfold ringbuf_copy
      rw [if_neg hc]
      by_cases hov : count > ringbuf_bytes_free other
      · simp only [if_pos hov]
        exact ⟨h1, h2, copy_loop_src_wf rb.size other.size rb.buf count
          (count + 1) rb.tail other.buf other.head 0 h3⟩
      · simp only [if_neg hov]
        exact ⟨h1, h2, copy_loop_src_wf rb.size other.size rb.buf count
          (count + 1) rb.tail other.buf other.head 0 h3⟩

theorem reachable_wf (rb0 rb : ringbuf_t) (h : Reachable rb0 rb) (hwf : WellFormed rb0) :
    WellFormed rb := by
  induction h with
  | refl => exact hwf
  | tail _ hstep ih => exact step_wf _ _ hstep ih

theorem flatFindFrom_ge (l : List Nat) (c offset : Nat) (h : offset ≥ l.length) :
    flatFindFrom l c offset = l.length := by
  rw [flatFindFrom, dif_pos h]

theorem flatFindFrom_skip (l : List Nat) (c : Nat) :
    ∀ (n offset : Nat), (∀ i, i < n → l.getD (offset + i) 0 ≠ c) →
      flatFindFrom l c offset = flatFindFrom l c (offset + n) := by
  intro n
  induction n with
  | zero => intro offset _; rw [Nat.add_zero]
  | succ m ih =>
    intro offset hmiss
    by_cases hlen : offset ≥ l.length
    · rw [flatFindFrom_ge l c offset hlen, flatFindFrom_ge l c (offset + (m + 1)) (by omega)]
    · conv_lhs => rw [flatFindFrom]
      rw [dif_neg hlen, if_neg (by simpa using hmiss 0 (by omega))]
      rw [ih (offset + 1) (fun i hi => by
        have := hmiss (i + 1) (by omega)
        rwa [show offset + (i + 1) = offset + 1 + i by omega] at this)]
      rw [show offset + 1 + m = offset + (m + 1) by omega]

theorem flatFindFrom_found (l : List Nat) (c : Nat) :
    ∀ (j offset : Nat), offset + j < l.length → l.getD (offset + j) 0 = c →
      (∀ i, i < j → l.getD (offset + i) 0 ≠ c) →
      flatFindFrom l c offset = offset + j := by
  intro j
  induction j with
  | zero =>
    intro offset hlt hc _
    rw [flatFindFrom, dif_neg (by omega)]
    rw [Nat.add_zero] at hc ⊢
    rw [if_pos hc]
    omega
  | succ m ih =>
    intro offset hlt hc hmiss
    conv_lhs => rw [flatFindFrom]
    rw [dif_neg (by omega), if_neg (by simpa using hmiss 0 (by omega))]
    have := ih (offset + 1) (by omega)
      (by rwa [show offset + 1 + m = offset + (m + 1) by omega])
      (fun i hi => by
        have := hmiss (i + 1) (by omega)
        rwa [show offset + (i + 1) = offset + 1 + i by omega] at this)
    rw [this]
    omega

theorem memchr_none_spec (c : Nat) :
    ∀ (seg : List Nat), memchr seg c = none → ∀ i, i < seg.length → seg.getD i 0 ≠ c := by
  intro seg
  induction seg with
  | nil => intro _ i hi; simp at hi
  | cons b rest ih =>
    intro h i hi
    rw [memchr] at h
    by_cases hb : b = c
    · rw [if_pos hb] at h
      simp at h
    · rw [if_neg hb] at h
      match i with
      | 0 => simpa using hb
      | j+1 =>
        rw [List.getD_cons_succ]
        exact ih (Option.map_eq_none'.mp h) j (by simpa using hi)

theorem memchr_some_spec (c : Nat) :
    ∀ (seg : List Nat) (j : Nat), memchr seg c = some j →
      j < seg.length ∧ seg.getD j 0 = c ∧ ∀ i, i < j → seg.getD i 0 ≠ c := by
  intro seg
  induction seg with
  | nil => intro j h; rw [memchr] at h; simp at h
  | cons b rest ih =>
    intro j h
    rw [memchr] at h
    by_cases hb : b = c
    · rw [if_pos hb] at h
      have hj : j = 0 := by simpa using h.symm
      subst hj
      exact ⟨by simp, by simpa using hb, fun i hi => by omega⟩
    · rw [if_neg hb] at h
      obtain ⟨j', hmem, hj⟩ := Option.map_eq_some'.mp h
      subst hj
      obtain ⟨l1, l2, l3⟩ := ih j' hmem
      refine ⟨by simp; omega, by simpa using l2, ?_⟩
      intro i hi
      match i with
      | 0 => simpa using hb
      | i'+1 =>
        rw [List.getD_cons_succ]
        exact l3 i' (by omega)

theorem take_drop_getD (buf : List Nat) (start n i : Nat) (h : i < n) :
    ((buf.drop start).take n).getD i 0 = buf.getD (start + i) 0 := by
  rw [List.getD_eq_getElem?_getD, List.getD_eq_getElem?_getD,
      List.getElem?_take, if_pos h, List.getElem?_drop]

theorem findchr_loop_spec (rb : ringbuf_t) (c : Nat) (hwf : WellFormed rb) :
    ∀ (fuel offset : Nat), ringbuf_bytes_used rb - offset < fuel →
      findchr_loop rb c fuel offset = flatFindFrom (contents rb) (c % 256) offset := by
  obtain ⟨h1, h2, h3⟩ := hwf
  have hUcap : ringbuf_bytes_used rb + ringbuf_bytes_free rb = ringbuf_capacity rb :=
    used_add_free rb ⟨h1, h2, h3⟩
  have hcap : ringbuf_capacity rb = rb.size - 1 := rfl
  intro fuel
  induction fuel with
  | zero => intro offset hf; omega
  | succ m ih =>
    intro offset hf
    rw [findchr_loop]
    by_cases hoff : offset ≥ ringbuf_bytes_used rb
    · rw [if_pos hoff, flatFindFrom_ge _ _ _ (by rw [length_contents]; omega),
          length_contents]
    · rw [if_neg hoff]
      have hused : 0 < ringbuf_bytes_used rb := by omega
      have hs2 : 2 ≤ rb.size := by omega
      have hs0 : 0 < rb.size := by omega
      have hstart : (rb.tail + offset) % ringbuf_buffer_size rb < rb.size := by
        simp only [ringbuf_buffer_size]
        exact Nat.mod_lt _ hs0
      -- the segment scanned this round
      have hseg : ∀ i, i < min (ringbuf_buffer_size rb - (rb.tail + offset) % ringbuf_buffer_size rb)
            (ringbuf_bytes_used rb - offset) →
          ((rb.buf.drop ((rb.tail + offset) % ringbuf_buffer_size rb)).take
            (min (ringbuf_buffer_size rb - (rb.tail + offset) % ringbuf_buffer_size rb)
              (ringbuf_bytes_used rb - offset))).getD i 0
          = (contents rb).getD (offset + i) 0 := by
        intro i hi
        have hib : i < rb.size - (rb.tail + offset) % rb.size := by
          simp only [ringbuf_buffer_size] at hi
          omega
        have hoi : offset + i < ringbuf_bytes_used rb := by
          simp only [ringbuf_buffer_size] at hi
          omega
        rw [take_drop_getD _ _ _ _ hi]
        have hidx : (rb.tail + (offset + i)) % rb.size =
            (rb.tail + offset) % ringbuf_buffer_size rb + i := by
          simp only [ringbuf_buffer_size]
          rw [show rb.tail + (offset + i) = rb.tail + offset + i by omega,
              ← Nat.mod_add_mod]
          exact Nat.mod_eq_of_lt (by omega)
        rw [List.getD_eq_getElem?_getD (contents rb) (offset + i) 0,
            contents_getElem? rb _ hoi, Option.getD_some, hidx]
      rcases hmc : memchr ((rb.buf.drop ((rb.tail + offset) % ringbuf_buffer_size rb)).take
          (min (ringbuf_buffer_size rb - (rb.tail + offset) % ringbuf_buffer_size rb)
            (ringbuf_bytes_used rb - offset))) (c % 256) with _ | j
      · -- not found in this contiguous run: recurse past it
        simp only [hmc]
        have hmiss := memchr_none_spec (c % 256) _ hmc
        have hlseg : ((rb.buf.drop ((rb.tail + offset) % ringbuf_buffer_size rb)).take
            (min (ringbuf_buffer_size rb - (rb.tail + offset) % ringbuf_buffer_size rb)
              (ringbuf_bytes_used rb - offset))).length =
            min (ringbuf_buffer_size rb - (rb.tail + offset) % ringbuf_buffer_size rb)
              (ringbuf_bytes_used rb - offset) := by
          rw [List.length_take, List.length_drop, h1]
          simp only [ringbuf_buffer_size]
          omega
        rw [ih _ (by simp only [ringbuf_buffer_size] at hstart ⊢; omega)]
        refine (flatFindFrom_skip (contents rb) (c % 256) _ offset ?_).symm
        intro i hi
        rw [← hseg i hi]
        exact hmiss i (by rw [hlseg]; exact hi)
      · -- found at segment index j
        simp only [hmc]
        obtain ⟨l1, l2, l3⟩ := memchr_some_spec (c % 256) _ _ hmc
        have hlseg : ((rb.buf.drop ((rb.tail + offset) % ringbuf_buffer_size rb)).take
            (min (ringbuf_buffer_size rb - (rb.tail + offset) % ringbuf_buffer_size rb)
              (ringbuf_bytes_used rb - offset))).length =
            min (ringbuf_buffer_size rb - (rb.tail + offset) % ringbuf_buffer_size rb)
              (ringbuf_bytes_used rb - offset) := by
          rw [List.length_take, List.length_drop, h1]
          simp only [ringbuf_buffer_size]
          omega
        rw [hlseg] at l1
        refine (flatFindFrom_found (contents rb) (c % 256) j offset ?_ ?_ ?_).symm
        · rw [length_contents]
          simp only [ringbuf_buffer_size] at l1
          omega
        · rw [← hseg j l1]
          exact l2
        · intro i hi
          rw [← hseg i (by omega)]
          exact l3 i hi

theorem range_map_getD (bs : List Nat) :
    (List.range bs.length).map (fun i => bs.getD i 0) = bs := by
  apply List.ext_getElem?
  intro n
  by_cases hn : n < bs.length
  · rw [List.getElem?_map, List.getElem?_range hn, Option.map_some',
        List.getD_eq_getElem?_getD, List.getElem?_eq_getElem hn, Option.getD_some]
  · rw [List.getElem?_eq_none (by simp; omega), List.getElem?_eq_none (by omega)]

theorem is_full_of_used_eq_cap (rb : ringbuf_t) (hwf : WellFormed rb)
    (h : ringbuf_bytes_used rb = ringbuf_capacity rb) : ringbuf_is_full rb = true := by
  have hle := free_le_capacity rb hwf
  simp only [ringbuf_is_full, beq_iff_eq]
  simp only [ringbuf_bytes_used] at h
  obtain ⟨h1, h2, h3⟩ := hwf
  simp only [ringbuf_capacity, ringbuf_buffer_size] at h hle ⊢
  omega

/-- C5: `ringbuf_bytes_free` returns `capacity - (head - tail)` when
`head >= tail` and `tail - head - 1` otherwise (ringbuf.c lines 146-153),
and `ringbuf_bytes_used` returns capacity minus that value (lines
155-159). -/
theorem c5_bytes_free_formula (rb : ringbuf_t) :
    (rb.head ≥ rb.tail →
      ringbuf_bytes_free rb = ringbuf_capacity rb - (rb.head - rb.tail))
    ∧ (rb.head < rb.tail →
      ringbuf_bytes_free rb = rb.tail - rb.head - 1)
    ∧ ringbuf_bytes_used rb = ringbuf_capacity rb - ringbuf_bytes_free rb := by
  refine ⟨fun h => ?_, fun h => ?_, rfl⟩
  · rw [ringbuf_bytes_free, if_pos h]
  · rw [ringbuf_bytes_free, if_neg (by omega)]

theorem c5_bytes_free_formula_witness :
    ringbuf_bytes_free ⟨[0, 0, 0, 0, 0], 3, 1, 5⟩ =
      ringbuf_capacity ⟨[0, 0, 0, 0, 0], 3, 1, 5⟩ - (3 - 1)
    ∧ ringbuf_bytes_free ⟨[0, 0, 0, 0, 0], 1, 3, 5⟩ = 3 - 1 - 1 :=
  ⟨(c5_bytes_free_formula ⟨[0, 0, 0, 0, 0], 3, 1, 5⟩).1 (by decide),
   (c5_bytes_free_formula ⟨[0, 0, 0, 0, 0], 1, 3, 5⟩).2.1 (by decide)⟩

/-- C3: underflow is a hard failure with no mutation. When the requested
count exceeds the bytes used of the source, `ringbuf_memcpy_from`
(ringbuf.c lines 283-285) and `ringbuf_copy` (lines 309-311) return the
NULL failure indicator before copying anything: the external
destination, the destination ring and the source ring all come back
exactly as they went in. -/
theorem c3_underflow_no_mutation (src dst2 : ringbuf_t) (dst : List Nat)
    (count count2 : Nat)
    (h : count > ringbuf_bytes_used src) (h2 : count2 > ringbuf_bytes_used src) :
    ringbuf_memcpy_from dst src count = (none, dst, src)
    ∧ ringbuf_copy dst2 src count2 = (none, dst2, src) := by
  constructor
  · rw [ringbuf_memcpy_from, if_pos h]
  · rw [ringbuf_copy, if_pos h2]

theorem c3_underflow_no_mutation_witness :
    1 > ringbuf_bytes_used ⟨[9, 9, 9], 0, 0, 3⟩
    ∧ ringbuf_memcpy_from [7] ⟨[9, 9, 9], 0, 0, 3⟩ 1 = (none, [7], ⟨[9, 9, 9], 0, 0, 3⟩)
    ∧ ringbuf_copy ⟨[5, 5], 1, 1, 2⟩ ⟨[9, 9, 9], 0, 0, 3⟩ 1 =
        (none, ⟨[5, 5], 1, 1, 2⟩, ⟨[9, 9, 9], 0, 0, 3⟩) :=
  ⟨by decide,
   (c3_underflow_no_mutation ⟨[9, 9, 9], 0, 0, 3⟩ ⟨[5, 5], 1, 1, 2⟩ [7] 1 1
      (by decide) (by decide)).1,
   (c3_underflow_no_mutation ⟨[9, 9, 9], 0, 0, 3⟩ ⟨[5, 5], 1, 1, 2⟩ [7] 1 1
      (by decide) (by decide)).2⟩

/-- C9: ring-to-ring copy with destination overflow. Copying 3 bytes
from a ring of capacity 4 holding "XYZW" (bytes 88, 89, 90, 87) into an
empty ring of capacity 2 succeeds (non-NULL return), evicts one byte on
the destination, and leaves the destination full with logical content
"YZ" (89, 90) and bytes_used 2, while the source tail advances by 3. -/
theorem c9_ring_to_ring_copy :
    ringbuf_capacity ⟨[88, 89, 90, 87, 0], 4, 0, 5⟩ = 4
    ∧ contents ⟨[88, 89, 90, 87, 0], 4, 0, 5⟩ = [88, 89, 90, 87]
    ∧ ringbuf_capacity ⟨[0, 0, 0], 0, 0, 3⟩ = 2
    ∧ ringbuf_bytes_used ⟨[0, 0, 0], 0, 0, 3⟩ = 0
    ∧ (ringbuf_copy ⟨[0, 0, 0], 0, 0, 3⟩ ⟨[88, 89, 90, 87, 0], 4, 0, 5⟩ 3).1.isSome = true
    ∧ contents (ringbuf_copy ⟨[0, 0, 0], 0, 0, 3⟩ ⟨[88, 89, 90, 87, 0], 4, 0, 5⟩ 3).2.1 =
        [89, 90]
    ∧ ringbuf_bytes_used
        (ringbuf_copy ⟨[0, 0, 0], 0, 0, 3⟩ ⟨[88, 89, 90, 87, 0], 4, 0, 5⟩ 3).2.1 = 2
    ∧ ringbuf_is_full
        (ringbuf_copy ⟨[0, 0, 0], 0, 0, 3⟩ ⟨[88, 89, 90, 87, 0], 4, 0, 5⟩ 3).2.1 = true
    ∧ (ringbuf_copy ⟨[0, 0, 0], 0, 0, 3⟩ ⟨[88, 89, 90, 87, 0], 4, 0, 5⟩ 3).2.2.tail = 0 + 3 := by
  decide

/-- C10: wrapping a NULL storage pointer does not yield a usable buffer.
For every capacity (and the asserted matching buf_size), the model of
`ringbuf_new_static` with a NULL `buf` returns NULL (ringbuf.c lines
88-94; the just-allocated metadata block is released first, which has no
observable counterpart in the model) rather than a buffer wrapping null
storage. -/
theorem c10_new_static_null (capacity bufSize : Nat) (_h : bufSize = capacity + 1) :
    ringbuf_new_static capacity none bufSize = none := rfl

theorem c10_new_static_null_witness :
    5 = 4 + 1 ∧ ringbuf_new_static 4 none 5 = none :=
  ⟨by decide, c10_new_static_null 4 5 (by decide)⟩

theorem memcpy_into_contents (rb : ringbuf_t) (bs : List Nat) (K : Nat)
    (hwf : WellFormed rb) (hK : K ≤ rb.size) (hbs : bs.length = K) :
    ringbuf_bytes_used (ringbuf_memcpy_into rb bs K).1 =
      min (ringbuf_bytes_used rb + K) (ringbuf_capacity rb)
    ∧ contents (ringbuf_memcpy_into rb bs K).1 =
      (contents rb ++ bs).drop (K - ringbuf_bytes_free rb) := by
  subst hbs
  obtain ⟨h1, h2, h3⟩ := hwf
  obtain ⟨e1, e2, e3⟩ :=
    memcpy_into_loop_spec rb.size bs rb.buf bs.length rb.head h1 h2 hK
  have heq := ringbuf_memcpy_into_eq rb bs bs.length
  have hw := write_contents rb (ringbuf_memcpy_into rb bs bs.length).1 bs.length
      (fun i => bs.getD i 0) ⟨h1, h2, h3⟩ hK
      (by rw [heq]) (by rw [heq]; exact e2) (by rw [heq]; exact e3)
      (by rw [heq]; exact e1) (by rw [heq, e1])
  rw [range_map_getD] at hw
  exact ⟨hw.1, hw.2⟩

theorem memset_contents (rb : ringbuf_t) (c K : Nat)
    (hwf : WellFormed rb) (hK : K ≤ rb.size) :
    ringbuf_bytes_used (ringbuf_memset rb c K).1 =
      min (ringbuf_bytes_used rb + K) (ringbuf_capacity rb)
    ∧ contents (ringbuf_memset rb c K).1 =
      (contents rb ++ List.replicate K (c % 256)).drop (K - ringbuf_bytes_free rb) := by
  obtain ⟨h1, h2, h3⟩ := hwf
  have hmin : min K rb.size = K := by omega
  have heq := ringbuf_memset_eq rb c K
  rw [hmin] at heq
  obtain ⟨e0, e1, e2, e3⟩ := memset_loop_spec rb.size c rb.buf K rb.head h1 h2 hK
  have hw := write_contents rb (ringbuf_memset rb c K).1 K (fun _ => c % 256)
      ⟨h1, h2, h3⟩ hK
      (by rw [heq]) (by rw [heq]; exact e2) (by rw [heq]; exact e3)
      (by rw [heq]; exact e1) (by rw [heq, e1])
  rw [List.map_const', List.length_range] at hw
  exact ⟨hw.1, hw.2⟩

/-- C2: overflow eviction. For every well-formed buffer state and every
K with K ≤ size, writing K bytes with `ringbuf_memcpy_into` or
`ringbuf_memset` leaves as logical content exactly the most recent bytes
of the stream old-content-then-new-bytes: the `K - bytes_free` oldest
bytes of that stream (i.e. max(0, K - bytes_free_before) bytes, all Nat
subtractions truncating at 0) become unreadable and everything else is
retained in order; the resulting occupancy is min(used + K, capacity);
and whenever K ≥ bytes_free_before the buffer afterwards reports
`ringbuf_is_full`. -/
theorem c2_overflow_eviction (rb : ringbuf_t) (bs : List Nat) (K c : Nat)
    (hwf : WellFormed rb) (hK : K ≤ rb.size) (hbs : bs.length = K) :
    (contents (ringbuf_memcpy_into rb bs K).1 =
        (contents rb ++ bs).drop (K - ringbuf_bytes_free rb)
      ∧ ringbuf_bytes_used (ringbuf_memcpy_into rb bs K).1 =
          min (ringbuf_bytes_used rb + K) (ringbuf_capacity rb)
      ∧ (K ≥ ringbuf_bytes_free rb →
          ringbuf_is_full (ringbuf_memcpy_into rb bs K).1 = true))
    ∧ (contents (ringbuf_memset rb c K).1 =
        (contents rb ++ List.replicate K (c % 256)).drop (K - ringbuf_bytes_free rb)
      ∧ ringbuf_bytes_used (ringbuf_memset rb c K).1 =
          min (ringbuf_bytes_used rb + K) (ringbuf_capacity rb)
      ∧ (K ≥ ringbuf_bytes_free rb →
          ringbuf_is_full (ringbuf_memset rb c K).1 = true)) := by
  obtain ⟨hu1, hc1⟩ := memcpy_into_contents rb bs K hwf hK hbs
  obtain ⟨hu2, hc2⟩ := memset_contents rb c K hwf hK
  have huf := used_add_free rb hwf
  have hwf1 : WellFormed (ringbuf_memcpy_into rb bs K).1 :=
    step_wf _ _ (Step.memcpy_into rb bs K) hwf
  have hwf2 : WellFormed (ringbuf_memset rb c K).1 :=
    step_wf _ _ (Step.memset rb c K) hwf
  have hsz1 : (ringbuf_memcpy_into rb bs K).1.size = rb.size := by
    rw [ringbuf_memcpy_into_eq]
  have hsz2 : (ringbuf_memset rb c K).1.size = rb.size := by
    rw [ringbuf_memset_eq]
  refine ⟨⟨hc1, hu1, fun hge => ?_⟩, ⟨hc2, hu2, fun hge => ?_⟩⟩
  · apply is_full_of_used_eq_cap _ hwf1
    rw [hu1, show ringbuf_capacity (ringbuf_memcpy_into rb bs K).1 = ringbuf_capacity rb
        from by simp only [ringbuf_capacity, ringbuf_buffer_size, hsz1]]
    omega
  · apply is_full_of_used_eq_cap _ hwf2
    rw [hu2, show ringbuf_capacity (ringbuf_memset rb c K).1 = ringbuf_capacity rb
        from by simp only [ringbuf_capacity, ringbuf_buffer_size, hsz2]]
    omega

theorem c2_overflow_eviction_witness :
    (ringbuf_memcpy_into ⟨[0, 0, 0, 0, 0], 0, 0, 5⟩ [65, 66] 2).1 =
        ⟨[65, 66, 0, 0, 0], 2, 0, 5⟩
    ∧ ringbuf_bytes_used ⟨[65, 66, 0, 0, 0], 2, 0, 5⟩ = 2
    ∧ ringbuf_bytes_free ⟨[65, 66, 0, 0, 0], 2, 0, 5⟩ = 2
    ∧ contents ⟨[65, 66, 0, 0, 0], 2, 0, 5⟩ = [65, 66]
    ∧ contents (ringbuf_memcpy_into ⟨[65, 66, 0, 0, 0], 2, 0, 5⟩ [67, 68, 69] 3).1 =
        [66, 67, 68, 69]
    ∧ ringbuf_bytes_used (ringbuf_memcpy_into ⟨[65, 66, 0, 0, 0], 2, 0, 5⟩ [67, 68, 69] 3).1 = 4
    ∧ ((contents (ringbuf_memcpy_into ⟨[65, 66, 0, 0, 0], 2, 0, 5⟩ [67, 68, 69] 3).1 =
          (contents ⟨[65, 66, 0, 0, 0], 2, 0, 5⟩ ++ [67, 68, 69]).drop
            (3 - ringbuf_bytes_free ⟨[65, 66, 0, 0, 0], 2, 0, 5⟩)
        ∧ ringbuf_bytes_used (ringbuf_memcpy_into ⟨[65, 66, 0, 0, 0], 2, 0, 5⟩ [67, 68, 69] 3).1 =
            min (ringbuf_bytes_used ⟨[65, 66, 0, 0, 0], 2, 0, 5⟩ + 3)
              (ringbuf_capacity ⟨[65, 66, 0, 0, 0], 2, 0, 5⟩)
        ∧ (3 ≥ ringbuf_bytes_free ⟨[65, 66, 0, 0, 0], 2, 0, 5⟩ →
            ringbuf_is_full (ringbuf_memcpy_into ⟨[65, 66, 0, 0, 0], 2, 0, 5⟩ [67, 68, 69] 3).1 =
              true))
      ∧ (contents (ringbuf_memset ⟨[65, 66, 0, 0, 0], 2, 0, 5⟩ 7 3).1 =
          (contents ⟨[65, 66, 0, 0, 0], 2, 0, 5⟩ ++ List.replicate 3 (7 % 256)).drop
            (3 - ringbuf_bytes_free ⟨[65, 66, 0, 0, 0], 2, 0, 5⟩)
        ∧ ringbuf_bytes_used (ringbuf_memset ⟨[65, 66, 0, 0, 0], 2, 0, 5⟩ 7 3).1 =
            min (ringbuf_bytes_used ⟨[65, 66, 0, 0, 0], 2, 0, 5⟩ + 3)
              (ringbuf_capacity ⟨[65, 66, 0, 0, 0], 2, 0, 5⟩)
        ∧ (3 ≥ ringbuf_bytes_free ⟨[65, 66, 0, 0, 0], 2, 0, 5⟩ →
            ringbuf_is_full (ringbuf_memset ⟨[65, 66, 0, 0, 0], 2, 0, 5⟩ 7 3).1 = true))) :=
  ⟨by decide, by decide, by decide, by decide, by decide, by decide,
   c2_overflow_eviction ⟨[65, 66, 0, 0, 0], 2, 0, 5⟩ [67, 68, 69] 3 7
     (by decide) (by decide) (by decide)⟩

theorem memcpy_into_head_tail (rb : ringbuf_t) (bs : List Nat) (K : Nat)
    (hwf : WellFormed rb) (hK : K ≤ rb.size) (hnov : ¬ K > ringbuf_bytes_free rb) :
    (ringbuf_memcpy_into rb bs K).1.head = (rb.head + K) % rb.size
    ∧ (ringbuf_memcpy_into rb bs K).1.tail = rb.tail
    ∧ (ringbuf_memcpy_into rb bs K).1.size = rb.size := by
  obtain ⟨h1, h2, h3⟩ := hwf
  obtain ⟨e1, e2, e3⟩ := memcpy_into_loop_spec rb.size bs rb.buf K rb.head h1 h2 hK
  rw [ringbuf_memcpy_into_eq]
  exact ⟨e1, by rw [if_neg hnov], rfl⟩

/-- C1: round-trip FIFO. Writing N ≤ capacity bytes into an empty
buffer (head = tail) with `ringbuf_memcpy_into` and then reading N bytes
with `ringbuf_memcpy_from` succeeds, delivers exactly the original byte
sequence in order, and leaves the buffer empty: head = tail and
bytes_used = 0. -/
theorem c1_round_trip (rb : ringbuf_t) (bs dst0 : List Nat) (N : Nat)
    (hwf : WellFormed rb) (hempty : rb.head = rb.tail) (hbs : bs.length = N)
    (hN : N ≤ ringbuf_capacity rb) (hdst : dst0.length = N) :
    (ringbuf_memcpy_from dst0 (ringbuf_memcpy_into rb bs N).1 N).1.isSome = true
    ∧ (ringbuf_memcpy_from dst0 (ringbuf_memcpy_into rb bs N).1 N).2.1 = bs
    ∧ (ringbuf_memcpy_from dst0 (ringbuf_memcpy_into rb bs N).1 N).2.2.head =
        (ringbuf_memcpy_from dst0 (ringbuf_memcpy_into rb bs N).1 N).2.2.tail
    ∧ ringbuf_bytes_used (ringbuf_memcpy_from dst0 (ringbuf_memcpy_into rb bs N).1 N).2.2 = 0 := by
  obtain ⟨h1, h2, h3⟩ := hwf
  have hs0 : 0 < rb.size := by omega
  have hcap : ringbuf_capacity rb = rb.size - 1 := rfl
  have hNs : N ≤ rb.size := by omega
  have hu0 : ringbuf_bytes_used rb = 0 := by
    rw [ringbuf_bytes_used, ringbuf_bytes_free, if_pos (by omega)]
    simp only [ringbuf_capacity, ringbuf_buffer_size]
    omega
  have hf0 : ringbuf_bytes_free rb = ringbuf_capacity rb := by
    rw [ringbuf_bytes_free, if_pos (by omega), hempty]
    simp only [ringbuf_capacity, ringbuf_buffer_size]
    omega
  have hnov : ¬ N > ringbuf_bytes_free rb := by omega
  obtain ⟨hh', ht', hsz'⟩ := memcpy_into_head_tail rb bs N ⟨h1, h2, h3⟩ hNs hnov
  obtain ⟨huw, hcw⟩ := memcpy_into_contents rb bs N ⟨h1, h2, h3⟩ hNs hbs
  have hc0 : contents rb = [] :=
    List.eq_nil_of_length_eq_zero (by rw [length_contents, hu0])
  rw [hc0, List.nil_append] at hcw
  rw [hu0] at huw
  have huwN : ringbuf_bytes_used (ringbuf_memcpy_into rb bs N).1 = N := by
    rw [huw]; omega
  have hdrop : N - ringbuf_bytes_free rb = 0 := by omega
  rw [hdrop, List.drop_zero] at hcw
  have hwfw : WellFormed (ringbuf_memcpy_into rb bs N).1 :=
    step_wf _ _ (Step.memcpy_into rb bs N) ⟨h1, h2, h3⟩
  have hnotgt : ¬ N > ringbuf_bytes_used (ringbuf_memcpy_into rb bs N).1 := by omega
  have heqf := ringbuf_memcpy_from_eq dst0 (ringbuf_memcpy_into rb bs N).1 N hnotgt
  obtain ⟨hw1, hw2, hw3⟩ := hwfw
  obtain ⟨f1, f2, f3⟩ := memcpy_from_loop_spec (ringbuf_memcpy_into rb bs N).1.size
      (ringbuf_memcpy_into rb bs N).1.buf dst0 N (ringbuf_memcpy_into rb bs N).1.tail
      hw1 hw3 (by rw [hsz']; exact hNs)
  refine ⟨?_, ?_, ?_, ?_⟩
  · rw [heqf]
    rfl
  · rw [heqf]
    dsimp only
    apply List.ext_getElem?
    intro q
    rw [f3 q]
    by_cases hq : q < N
    · rw [if_pos ⟨hq, by omega⟩,
          ← contents_getElem? _ q (by rw [huwN]; exact hq), hcw]
    · rw [if_neg (by omega), List.getElem?_eq_none (by omega),
          List.getElem?_eq_none (by omega)]
  · rw [heqf]
    dsimp only
    rw [f1, hh', ht', hsz', hempty]
  · rw [heqf]
    simp only [ringbuf_bytes_used, ringbuf_bytes_free, ringbuf_capacity, ringbuf_buffer_size]
    rw [f1, hh', ht', hsz', hempty]
    split <;> omega

theorem c1_round_trip_witness :
    WellFormed ⟨[9, 9, 9, 9, 9], 3, 3, 5⟩
    ∧ ((ringbuf_memcpy_from [0, 0, 0, 0]
          (ringbuf_memcpy_into ⟨[9, 9, 9, 9, 9], 3, 3, 5⟩ [1, 2, 3, 4] 4).1 4).1.isSome = true
      ∧ (ringbuf_memcpy_from [0, 0, 0, 0]
          (ringbuf_memcpy_into ⟨[9, 9, 9, 9, 9], 3, 3, 5⟩ [1, 2, 3, 4] 4).1 4).2.1 = [1, 2, 3, 4]
      ∧ (ringbuf_memcpy_from [0, 0, 0, 0]
          (ringbuf_memcpy_into ⟨[9, 9, 9, 9, 9], 3, 3, 5⟩ [1, 2, 3, 4] 4).1 4).2.2.head =
        (ringbuf_memcpy_from [0, 0, 0, 0]
          (ringbuf_memcpy_into ⟨[9, 9, 9, 9, 9], 3, 3, 5⟩ [1, 2, 3, 4] 4).1 4).2.2.tail
      ∧ ringbuf_bytes_used (ringbuf_memcpy_from [0, 0, 0, 0]
          (ringbuf_memcpy_into ⟨[9, 9, 9, 9, 9], 3, 3, 5⟩ [1, 2, 3, 4] 4).1 4).2.2 = 0) :=
  ⟨by decide,
   c1_round_trip ⟨[9, 9, 9, 9, 9], 3, 3, 5⟩ [1, 2, 3, 4] [0, 0, 0, 0] 4
     (by decide) (by decide) (by decide) (by decide) (by decide)⟩

/-- C4: occupancy accounting invariant. For every buffer reachable from
a well-formed buffer by any sequence of the section-4 operations
(reset, memset, memcpy_into, memcpy_from, copy; findchr takes a const
buffer and mutates nothing), bytes_used + bytes_free = capacity and
bytes_used ≤ capacity. -/
theorem c4_accounting_invariant (rb0 rb : ringbuf_t)
    (hwf : WellFormed rb0) (h : Reachable rb0 rb) :
    ringbuf_bytes_used rb + ringbuf_bytes_free rb = ringbuf_capacity rb
    ∧ ringbuf_bytes_used rb ≤ ringbuf_capacity rb := by
  have hwf' := reachable_wf rb0 rb h hwf
  refine ⟨used_add_free rb hwf', ?_⟩
  simp only [ringbuf_bytes_used]
  omega

theorem c4_accounting_invariant_witness :
    WellFormed ⟨[0, 0, 0, 0, 0], 0, 0, 5⟩
    ∧ (ringbuf_bytes_used (ringbuf_memcpy_into ⟨[0, 0, 0, 0, 0], 0, 0, 5⟩ [7, 8, 9] 3).1
        + ringbuf_bytes_free (ringbuf_memcpy_into ⟨[0, 0, 0, 0, 0], 0, 0, 5⟩ [7, 8, 9] 3).1
        = ringbuf_capacity (ringbuf_memcpy_into ⟨[0, 0, 0, 0, 0], 0, 0, 5⟩ [7, 8, 9] 3).1
      ∧ ringbuf_bytes_used (ringbuf_memcpy_into ⟨[0, 0, 0, 0, 0], 0, 0, 5⟩ [7, 8, 9] 3).1
        ≤ ringbuf_capacity (ringbuf_memcpy_into ⟨[0, 0, 0, 0, 0], 0, 0, 5⟩ [7, 8, 9] 3).1) :=
  ⟨by decide,
   c4_accounting_invariant ⟨[0, 0, 0, 0, 0], 0, 0, 5⟩ _ (by decide)
     (Relation.ReflTransGen.single (Step.memcpy_into ⟨[0, 0, 0, 0, 0], 0, 0, 5⟩ [7, 8, 9] 3))⟩

/-- C8: cursor validity invariant. For every buffer reachable from a
well-formed buffer by any sequence of operations, head and tail lie
within the storage region (indices below size); the buffer is empty iff
head = tail; and it is full iff bytes_free = 0, equivalently iff
advancing head one more slot (ringbuf_nextp) would make it equal
tail. -/
theorem c8_cursor_validity (rb0 rb : ringbuf_t)
    (hwf : WellFormed rb0) (h : Reachable rb0 rb) :
    (rb.head < rb.size ∧ rb.tail < rb.size)
    ∧ (ringbuf_is_empty rb = true ↔ rb.head = rb.tail)
    ∧ (ringbuf_is_full rb = true ↔ ringbuf_bytes_free rb = 0)
    ∧ (ringbuf_is_full rb = true ↔ ringbuf_nextp rb rb.head = rb.tail) := by
  obtain ⟨h1, h2, h3⟩ := reachable_wf rb0 rb h hwf
  have hs0 : 0 < rb.size := by omega
  refine ⟨⟨h2, h3⟩, ?_, ?_, ?_⟩
  · simp only [ringbuf_is_empty, beq_iff_eq, ringbuf_bytes_free, ringbuf_capacity,
      ringbuf_buffer_size]
    split <;> omega
  · simp only [ringbuf_is_full, beq_iff_eq]
  · simp only [ringbuf_is_full, beq_iff_eq, ringbuf_nextp, ringbuf_buffer_size,
      ringbuf_bytes_free, ringbuf_capacity]
    rcases mod2 (rb.head + 1) rb.size (by omega) with ⟨a, b⟩ | ⟨a, b⟩ <;>
      rw [b] <;> split <;> omega

theorem c8_cursor_validity_witness :
    WellFormed ⟨[4, 5, 6], 2, 1, 3⟩
    ∧ (((ringbuf_memset ⟨[4, 5, 6], 2, 1, 3⟩ 9 1).1.head <
          (ringbuf_memset ⟨[4, 5, 6], 2, 1, 3⟩ 9 1).1.size
        ∧ (ringbuf_memset ⟨[4, 5, 6], 2, 1, 3⟩ 9 1).1.tail <
          (ringbuf_memset ⟨[4, 5, 6], 2, 1, 3⟩ 9 1).1.size)
      ∧ (ringbuf_is_empty (ringbuf_memset ⟨[4, 5, 6], 2, 1, 3⟩ 9 1).1 = true ↔
          (ringbuf_memset ⟨[4, 5, 6], 2, 1, 3⟩ 9 1).1.head =
          (ringbuf_memset ⟨[4, 5, 6], 2, 1, 3⟩ 9 1).1.tail)
      ∧ (ringbuf_is_full (ringbuf_memset ⟨[4, 5, 6], 2, 1, 3⟩ 9 1).1 = true ↔
          ringbuf_bytes_free (ringbuf_memset ⟨[4, 5, 6], 2, 1, 3⟩ 9 1).1 = 0)
      ∧ (ringbuf_is_full (ringbuf_memset ⟨[4, 5, 6], 2, 1, 3⟩ 9 1).1 = true ↔
          ringbuf_nextp (ringbuf_memset ⟨[4, 5, 6], 2, 1, 3⟩ 9 1).1
            (ringbuf_memset ⟨[4, 5, 6], 2, 1, 3⟩ 9 1).1.head =
          (ringbuf_memset ⟨[4, 5, 6], 2, 1, 3⟩ 9 1).1.tail)) :=
  ⟨by decide,
   c8_cursor_validity ⟨[4, 5, 6], 2, 1, 3⟩ _ (by decide)
     (Relation.ReflTransGen.single (Step.memset ⟨[4, 5, 6], 2, 1, 3⟩ 9 1))⟩

/-- C6: search correctness over the wrap boundary. For every well-formed
buffer, byte value c and offset, `ringbuf_findchr` returns the same
logical offset (relative to tail) as a search for the byte value
(c converted to unsigned char, i.e. c % 256) starting at that offset in
the flattened copy of the buffer's unread contents; in particular when
offset ≥ bytes_used it returns bytes_used. The model of the call is a
pure function of the (const) buffer, mirroring that the C function never
mutates it. -/
theorem c6_findchr_flattened (rb : ringbuf_t) (c offset : Nat) (hwf : WellFormed rb) :
    ringbuf_findchr rb c offset = flatFindFrom (contents rb) (c % 256) offset
    ∧ (offset ≥ ringbuf_bytes_used rb →
        ringbuf_findchr rb c offset = ringbuf_bytes_used rb) := by
  have hmain := findchr_loop_spec rb c hwf (ringbuf_bytes_used rb + 1) offset (by omega)
  refine ⟨hmain, fun hoff => ?_⟩
  rw [ringbuf_findchr, findchr_loop, if_pos hoff]

theorem c6_findchr_flattened_witness :
    WellFormed ⟨[3, 4, 9, 1, 2], 2, 3, 5⟩
    ∧ contents ⟨[3, 4, 9, 1, 2], 2, 3, 5⟩ = [1, 2, 3, 4]
    ∧ ringbuf_findchr ⟨[3, 4, 9, 1, 2], 2, 3, 5⟩ 4 0 = 3
    ∧ (ringbuf_findchr ⟨[3, 4, 9, 1, 2], 2, 3, 5⟩ 4 0 =
        flatFindFrom (contents ⟨[3, 4, 9, 1, 2], 2, 3, 5⟩) (4 % 256) 0
      ∧ (0 ≥ ringbuf_bytes_used ⟨[3, 4, 9, 1, 2], 2, 3, 5⟩ →
          ringbuf_findchr ⟨[3, 4, 9, 1, 2], 2, 3, 5⟩ 4 0 =
          ringbuf_bytes_used ⟨[3, 4, 9, 1, 2], 2, 3, 5⟩)) :=
  ⟨by decide, by decide, by decide,
   c6_findchr_flattened ⟨[3, 4, 9, 1, 2], 2, 3, 5⟩ 4 0 (by decide)⟩

/-- C7: fill length cap and return value. For every well-formed buffer,
fill byte c and requested length len, `ringbuf_memset` writes exactly
min(len, size) copies of the byte value c % 256 (the `unsigned char`
conversion of its int argument): the slots at logical positions
0..min(len,size)-1 from the old head hold that byte, every other slot
of the storage is unchanged, head advances by min(len, size) with
wraparound, and the returned byte count is min(len, size). -/
theorem c7_memset_fill (rb : ringbuf_t) (c len : Nat) (hwf : WellFormed rb) :
    (ringbuf_memset rb c len).2 = min len rb.size
    ∧ (ringbuf_memset rb c len).1.head = (rb.head + min len rb.size) % rb.size
    ∧ (∀ i, i < min len rb.size →
        (ringbuf_memset rb c len).1.buf.getD ((rb.head + i) % rb.size) 0 = c % 256)
    ∧ (∀ q, q < rb.size → (q + (rb.size - rb.head)) % rb.size ≥ min len rb.size →
        (ringbuf_memset rb c len).1.buf.getD q 0 = rb.buf.getD q 0) := by
  obtain ⟨h1, h2, h3⟩ := hwf
  have hs0 : 0 < rb.size := by omega
  have heq := ringbuf_memset_eq rb c len
  obtain ⟨e0, e1, e2, e3⟩ :=
    memset_loop_spec rb.size c rb.buf (min len rb.size) rb.head h1 h2 (by omega)
  refine ⟨?_, ?_, ?_, ?_⟩
  · rw [heq]
    exact e0
  · rw [heq]
    exact e1
  · intro i hi
    rw [heq]
    dsimp only
    have hq : (rb.head + i) % rb.size < rb.size := Nat.mod_lt _ hs0
    rw [List.getD_eq_getElem?_getD, e3 _ hq]
    rw [Nat.mod_add_mod, show rb.head + i + (rb.size - rb.head) = i + rb.size by omega,
        Nat.add_mod_right, Nat.mod_eq_of_lt (show i < rb.size by omega)]
    rw [if_pos hi, Option.getD_some]
  · intro q hq hge
    rw [heq]
    dsimp only
    rw [List.getD_eq_getElem?_getD, e3 _ hq, if_neg (by omega),
        ← List.getD_eq_getElem?_getD]

theorem c7_memset_fill_witness :
    WellFormed ⟨[1, 2, 3, 4, 5], 3, 1, 5⟩
    ∧ ((ringbuf_memset ⟨[1, 2, 3, 4, 5], 3, 1, 5⟩ 300 4).2 = min 4 5
      ∧ (ringbuf_memset ⟨[1, 2, 3, 4, 5], 3, 1, 5⟩ 300 4).1.head = (3 + min 4 5) % 5
      ∧ (∀ i, i < min 4 5 →
          (ringbuf_memset ⟨[1, 2, 3, 4, 5], 3, 1, 5⟩ 300 4).1.buf.getD ((3 + i) % 5) 0 =
            300 % 256)
      ∧ (∀ q, q < 5 → (q + (5 - 3)) % 5 ≥ min 4 5 →
          (ringbuf_memset ⟨[1, 2, 3, 4, 5], 3, 1, 5⟩ 300 4).1.buf.getD q 0 =
            ([1, 2, 3, 4, 5] : List Nat).getD q 0)) :=
  ⟨by decide, c7_memset_fill ⟨[1, 2, 3, 4, 5], 3, 1, 5⟩ 300 4 (by decide)⟩
